import Mathlib

/-!
Verification development for the bitswap responder of
`dhtpir-private-bitswap-client`.

The Go sources embedded here:
* `server/server.go` (the unnamed core file): `readLoop` (frame reader),
  `onMessage` (request processor), `streamSender.enqueue` (bounded queue),
  constants `MaxSendMsgSize`, errors `ErrNotHave` / `ErrOverflow`;
* `server/util/store.go`: the in-memory `store` with `Has` and `Get`;
* `encoding/binary.Uvarint` / `PutUvarint` from the Go standard library,
  which the frame reader and writer use for length prefixes.

Conventions of the embedding:
* bytes are `Nat` values (the wire carries values `< 256`; no arithmetic in
  the modelled code ever wraps a byte, so no modular reduction is needed);
* Go's 64-bit arithmetic in `binary.Uvarint` is modelled over `Nat`; the
  function's own overflow guards (at most 10 groups, last group at most 1)
  keep every intermediate below `2^64`, so `Nat` agrees with `uint64` on
  all inputs reaching the arithmetic;
* the 4 MiB read-assembly buffer is modelled as an index function
  `Nat → Nat` together with its explicit length (Go's `len(buf)`);
* fallible Go calls return `Except GoError` / pairs with `Option GoError`.
-/

/-- Errors of the modelled Go code.  `errNotHave` is `bitswapserver.ErrNotHave`
("no requested blocks available"), `errOverflow` is `ErrOverflow`
("send queue overflow"), `errNotFound` is `util.ErrNotHave` ("not found"),
and `other n` stands for any further distinct `error` value a blockstore
implementation may produce. -/
inductive GoError where
  | errNotHave : GoError
  | errOverflow : GoError
  | errNotFound : GoError
  | other : Nat → GoError
deriving DecidableEq

/-- Encoding step of Go's `binary.PutUvarint`, with explicit structural fuel:
the Go loop runs while `x >= 0x80`; ten emitted bytes cover every `uint64`
(`MaxVarintLen64 = 10`), so fuel `10` makes the model total and faithful on
the whole `uint64` range. -/
def putUvarintAux : Nat → Nat → List Nat
  | 0, x => [x]
  | fuel + 1, x =>
    if x < 128 then [x]
    else (x % 128 + 128) :: putUvarintAux fuel (x / 128)

/-- Go's `binary.PutUvarint` byte sequence for `x` (`byte(x)|0x80` on each
continuation group equals `x % 128 + 128`, and `x >> 7` is `x / 128`). -/
def putUvarint (x : Nat) : List Nat :=
  putUvarintAux 10 x

/-- Decoding loop of Go's `binary.Uvarint`, reading bytes of the buffer
`f` at indices `i, i+1, ...`; `fuel` is the number of buffer bytes still
available (`len(buf) - i`), so running out of fuel is Go's "buffer too
small" result `(0, 0)`.  The checks `i = 10` and `i = 9 ∧ 1 < b` are Go's
64-bit overflow guards returning `(0, -(i+1))`.  `x | b<<s` is `x + b·2^s`
because each 7-bit group lands in bits the accumulator has not touched. -/
def uvarintAux (f : Nat → Nat) : Nat → Nat → Nat → Nat → Nat × Int
  | 0, _, _, _ => (0, 0)
  | fuel + 1, i, x, s =>
    if i = 10 then (0, -(i + 1 : Int))
    else
      let b := f i
      if b < 128 then
        if i = 9 ∧ 1 < b then (0, -(i + 1 : Int))
        else (x + b * 2 ^ s, (i + 1 : Int))
      else uvarintAux f fuel (i + 1) (x + b % 128 * 2 ^ s) (s + 7)

/-- Go's `binary.Uvarint(buf)` on a buffer of length `len` modelled by the
index function `f`: value and byte count (negative on overflow, zero when
the buffer ends inside the varint). -/
def uvarintGo (f : Nat → Nat) (len : Nat) : Nat × Int :=
  uvarintAux f len 0 0 0

/-- Per-connection mutable state of `readLoop` between two `stream.Read`
calls: the assembly buffer (`buf`, as index function `f` plus its length
`bufLen` standing for Go's `len(buf)`), `pos`, `prefixLen` and `msgLen`. -/
structure RdState where
  f : Nat → Nat
  bufLen : Nat
  pos : Nat
  prefixLen : Nat
  msgLen : Nat

/-- Writing the bytes `chunk` into the buffer starting at index `pos`
(the effect of `stream.Read(buf[pos:])` returning those bytes). -/
def bufWrite (f : Nat → Nat) (pos : Nat) (chunk : List Nat) : Nat → Nat :=
  fun i => if pos ≤ i ∧ i < pos + chunk.length then chunk.getD (i - pos) 0 else f i

/-- The slice `buf[a:b]` of the buffer modelled by `f`. -/
def bufSlice (f : Nat → Nat) (a b : Nat) : List Nat :=
  (List.range (b - a)).map fun j => f (a + j)

/-- Result of one iteration of the `readLoop` body: either the stream was
closed (`stream.Close(); return`), or the loop continues in a new state,
having handed the request processor the listed message bodies (at most
one per iteration). -/
inductive StepRes where
  | closed : StepRes
  | next : RdState → List (List Nat) → StepRes

/-- Tail of the `readLoop` body after `pos`/`msgLen` bookkeeping: when
`pos == msgLen` the body `buf[prefixLen:msgLen]` is handed to
`h.onMessage`; a processor error closes the stream, success resets the
counters for the next frame. -/
def dispatchCheck (handle : List Nat → Option GoError) (f : Nat → Nat)
    (len pos pfx mlen : Nat) : StepRes :=
  if pos = mlen then
    match handle (bufSlice f pfx mlen) with
    | some _ => .closed
    | none => .next ⟨f, len, 0, 0, 0⟩ [bufSlice f pfx mlen]
  else .next ⟨f, len, pos, pfx, mlen⟩ []

/-- One iteration of the `readLoop` body of `server.go`, given that
`stream.Read(buf[pos:])` returned the bytes `chunk` (so `readLen =
chunk.length`).  `mbs` is the protocol constant `bitswap.MaxBlockSize`
(declared in this repository outside the provided sources; modelled from
the spec as a fixed parameter: "a fixed protocol maximum block size"), and
`handle` is `h.onMessage` on the dispatched frame body (`none` = nil
error).  When `msgLen == 0` the header is parsed with `binary.Uvarint(buf)`;
`intLen <= 0` or `nextLen > MaxBlockSize` close the stream; if
`nextLen > len(buf)` the buffer is reallocated to `intLen + nextLen` bytes
with the old contents copied; then `msgLen = nextLen + intLen`,
`pos = readLen`, `prefixLen = intLen`.  Otherwise `pos += readLen`. -/
def readStep (mbs : Nat) (handle : List Nat → Option GoError)
    (st : RdState) (chunk : List Nat) : StepRes :=
  let f1 := bufWrite st.f st.pos chunk
  if st.msgLen = 0 then
    let d := uvarintGo f1 st.bufLen
    if d.2 ≤ 0 then .closed
    else if mbs < d.1 then .closed
    else
      let il := d.2.toNat
      let f2 := if st.bufLen < d.1 then (fun i => if i < st.bufLen then f1 i else 0) else f1
      let len2 := if st.bufLen < d.1 then il + d.1 else st.bufLen
      dispatchCheck handle f2 len2 chunk.length il (d.1 + il)
  else
    dispatchCheck handle f1 st.bufLen (st.pos + chunk.length) st.prefixLen st.msgLen

/-- Outcome of running `readLoop` against a scheduled sequence of reads:
the connection was closed on an error (`closed`), the peer's bytes ran out
and `Read` reported `io.EOF` so the loop returned cleanly (`eofClean`), or
the schedule of reads ended with the loop still waiting (`pending`).
Each constructor carries the bodies handed to the request processor. -/
inductive RunRes where
  | closed : List (List Nat) → RunRes
  | eofClean : List (List Nat) → RunRes
  | pending : List (List Nat) → RdState → List Nat → RunRes

/-- Running `readLoop` of `server.go`.  `stream` is the peer's remaining
byte stream and `sizes` schedules how many bytes each `stream.Read` call
returns (the transport may deliver arbitrarily sized chunks); a read
returns `min size (min remaining space)` bytes where `space = len(buf) -
pos`, and reports `io.EOF` once the stream is exhausted (timeouts, which
`readLoop` retries, are not scheduled). -/
def runLoop (mbs : Nat) (handle : List Nat → Option GoError) :
    List Nat → List Nat → RdState → List (List Nat) → RunRes
  | stream, [], st, acc => .pending acc st stream
  | stream, sz :: rest, st, acc =>
    if stream = [] then .eofClean acc
    else
      let k := min sz (min stream.length (st.bufLen - st.pos))
      match readStep mbs handle st (stream.take k) with
      | .closed => .closed acc
      | .next st' d => runLoop mbs handle (stream.drop k) rest st' (acc ++ d)

/-- Initial `readLoop` state: `buf := make([]byte, 4*1024*1024)`
(zero-filled), `pos = 0`, `prefixLen = 0`, `msgLen = 0`. -/
def initSt : RdState :=
  ⟨fun _ => 0, 4 * 1024 * 1024, 0, 0, 0⟩

/-- One wire frame: varint length prefix followed by the message body. -/
def encodeFrame (b : List Nat) : List Nat :=
  putUvarint b.length ++ b

/-- Bodies handed to the request processor, by outcome. -/
def RunRes.delivered : RunRes → List (List Nat)
  | .closed acc => acc
  | .eofClean acc => acc
  | .pending acc _ _ => acc

/-- Final reader state of a `pending` outcome (dummy `initSt` otherwise). -/
def RunRes.pendSt : RunRes → RdState
  | .pending _ st _ => st
  | _ => initSt

/-- Want-kind of a want-list entry, `Message_Wantlist_WantType`: the code
branches on `e.GetWantType().String() == "Block"`, every other value taking
the `Have` branch. -/
inductive WantKind where
  | wantBlock : WantKind
  | wantHave : WantKind
deriving DecidableEq

/-- One want-list entry `{identifier, want-kind, send-dont-have}`; content
identifiers are opaque keys, modelled as `Nat`. -/
structure WEntry where
  cid : Nat
  kind : WantKind
  sendDontHave : Bool
deriving DecidableEq

/-- Presence kind of a `Message_BlockPresence`. -/
inductive PresKind where
  | presHave : PresKind
  | presDontHave : PresKind
deriving DecidableEq

/-- A presence assertion `{identifier, Have | DontHave}`. -/
structure Pres where
  cid : Nat
  kind : PresKind
deriving DecidableEq

/-- The response message being accumulated by `onMessage` (`resp.Blocks`,
`resp.BlockPresences`) together with the running payload byte count
`filled`. -/
structure RespState where
  blocks : List (List Nat)
  presences : List Pres
  filled : Nat
deriving DecidableEq

/-- The `Blockstore` capability consumed by the handler.
`get c` models `Get(ctx, c) (blocks.Block, error)`; `has c` models
`Has(ctx, c) (bool, error)` — the boolean and the error are returned
together because `onMessage` inspects both (`err == nil && has`).
The 1-second context deadline has no observable effect in this model
(lookups are pure). -/
structure BStore where
  get : Nat → Except GoError (List Nat)
  has : Nat → Bool × Option GoError

/-- The constant `MaxSendMsgSize = 3 * 1024 * 1024` of `server.go`. -/
def MaxSendMsgSize : Nat := 3 * 1024 * 1024

/-- The want-list loop of `onMessage` in `server.go`, threading the
response accumulator through the entries.  For a `Block` entry with
`filled < MaxSendMsgSize` the block is fetched — a `Get` error aborts the
whole request with that error — and its raw bytes are appended with
`filled` increased; with the budget exhausted a `Have` presence is
appended instead.  For a `Have` entry, `err == nil && has` appends a
`Have` presence, otherwise a `DontHave` presence is appended exactly when
`SendDontHave` is set. -/
def procEntries (bs : BStore) : List WEntry → RespState → Except GoError RespState
  | [], r => .ok r
  | e :: rest, r =>
    match e.kind with
    | .wantBlock =>
      if r.filled < MaxSendMsgSize then
        match bs.get e.cid with
        | .error err => .error err
        | .ok data =>
          procEntries bs rest ⟨r.blocks ++ [data], r.presences, r.filled + data.length⟩
      else
        procEntries bs rest ⟨r.blocks, r.presences ++ [⟨e.cid, .presHave⟩], r.filled⟩
    | .wantHave =>
      if (bs.has e.cid).2 = none ∧ (bs.has e.cid).1 = true then
        procEntries bs rest ⟨r.blocks, r.presences ++ [⟨e.cid, .presHave⟩], r.filled⟩
      else if e.sendDontHave = true then
        procEntries bs rest ⟨r.blocks, r.presences ++ [⟨e.cid, .presDontHave⟩], r.filled⟩
      else
        procEntries bs rest r

/-- The `streamSender.enqueue` of `server.go`: a non-blocking send on the
5-slot channel `make(chan []byte, 5)`; it succeeds exactly when fewer than
5 messages are queued and unconsumed, and otherwise fails with
`ErrOverflow` (the `select`/`default` branch). -/
def enqueueGo (queue : List (List Nat)) (msg : List Nat) : Except GoError (List (List Nat)) :=
  if queue.length < 5 then .ok (queue ++ [msg]) else .error .errOverflow

/-- Serialization `resp.Marshal()` of the response message.  The wire
schema's binary encoding is external to the core (a given serializer); it
is modelled as a total length-prefixed concatenation — no property of the
format is used by any claim, only that some bytes are enqueued. -/
def marshalResp (r : RespState) : List Nat :=
  (r.blocks.map fun b => putUvarint b.length ++ b).flatten
    ++ (r.presences.map fun p => [p.cid, if p.kind = .presHave then 1 else 0]).flatten

/-- The `onMessage` handler of `server.go` on an already-decoded request
(`m.Unmarshal` is the external wire decoder; its failure path returns the
decode error before any processing and is outside the decoded-request
claims).  Returns the Go error (`none` = nil) and the writer queue after
the call: on `filled > 0` the marshalled response is enqueued and the
enqueue result returned, otherwise `ErrNotHave` is returned. -/
def onMessageGo (bs : BStore) (queue : List (List Nat)) (entries : List WEntry) :
    Option GoError × List (List Nat) :=
  match procEntries bs entries ⟨[], [], 0⟩ with
  | .error err => (some err, queue)
  | .ok r =>
    if 0 < r.filled then
      match enqueueGo queue (marshalResp r) with
      | .ok q' => (none, q')
      | .error err => (some err, queue)
    else
      (some .errNotHave, queue)

/-- The in-memory store of `server/util/store.go`: a map from content
identifier to block payload. -/
structure MemStore where
  db : Nat → Option (List Nat)

/-- `store.Has` of `server/util/store.go`: a map membership test, always
returning a nil error. -/
def MemStore.hasGo (s : MemStore) (_ctx : Unit) (c : Nat) : Bool × Option GoError :=
  match s.db c with
  | some _ => (true, none)
  | none => (false, none)

/-- `store.Get` of `server/util/store.go`: the mapped payload, or the
`util.ErrNotHave` ("not found") error when the identifier is absent. -/
def MemStore.getGo (s : MemStore) (_ctx : Unit) (c : Nat) : Except GoError (List Nat) :=
  match s.db c with
  | some blk => .ok blk
  | none => .error .errNotFound

/-- Sum of the raw payload bytes of a response. -/
def payloadBytes (r : RespState) : Nat :=
  (r.blocks.map List.length).sum

instance {ε α : Type} [DecidableEq ε] [DecidableEq α] : DecidableEq (Except ε α) := fun x y =>
  match x, y with
  | .ok a, .ok b => if h : a = b then .isTrue (by rw [h]) else .isFalse (by simp [h])
  | .error a, .error b => if h : a = b then .isTrue (by rw [h]) else .isFalse (by simp [h])
  | .ok _, .error _ => .isFalse (by simp)
  | .error _, .ok _ => .isFalse (by simp)

/-- Payload returned by the store for an identifier (empty on error);
used only to state which blocks a successful all-`Block` run returns. -/
def blockData (bs : BStore) (c : Nat) : List Nat :=
  (bs.get c).toOption.getD []

/-- Number of leading entries whose blocks the budget check lets
`onMessage` fetch, given their payload sizes and the starting `filled`:
an entry is fetched exactly while the running total is still under
`MaxSendMsgSize`. -/
def budgetSplit : List Nat → Nat → Nat
  | [], _ => 0
  | s :: rest, fl => if fl < MaxSendMsgSize then 1 + budgetSplit rest (fl + s) else 0

/-- The buffer `f` agrees with the byte list `L` on all indices below `n`. -/
def AgreesPrefix (f : Nat → Nat) (L : List Nat) (n : Nat) : Prop :=
  ∀ j, j < n → f j = L.getD j 0

/-- A frame-aligned chunking of one wire frame: a nonempty list of
nonempty read chunks whose concatenation is exactly the frame, the first
of which contains at least the whole `pl`-byte varint prefix. -/
def goodChunks (frame : List Nat) (pl : Nat) (cs : List (List Nat)) : Prop :=
  cs ≠ [] ∧ (∀ c ∈ cs, c ≠ []) ∧ cs.flatten = frame ∧ pl ≤ (cs.headD []).length

instance (frame : List Nat) (pl : Nat) (cs : List (List Nat)) :
    Decidable (goodChunks frame pl cs) := by
  unfold goodChunks
  infer_instance

/-- Reader state after the first read delivers the 2-byte frame
`[1, 65]`'s first byte count: prefix `[1]` parsed, `msgLen = 2`. -/
def c9WitSt : RdState :=
  ⟨bufWrite initSt.f initSt.pos [1], 4 * 1024 * 1024, 1, 1, 2⟩

example : putUvarint 1 = [1] := by decide

example : putUvarint 300 = [172, 2] := by decide

example : uvarintGo (fun i => [172, 2, 9].getD i 0) 3 = (300, 2) := by decide

example : uvarintGo (fun _ => 0) 4194304 = (0, 1) := by decide

example : uvarintGo (fun i => [128].getD i 0) 1 = (0, 0) := by decide

example :
    runLoop 2097152 (fun _ => none) (encodeFrame [65] ++ encodeFrame [66]) [2, 2, 1]
      initSt [] = .eofClean [[65], [66]] := by rfl

example :
    procEntries ⟨fun c => if c = 0 then .ok [1, 2] else .error .errNotFound,
        fun _ => (false, none)⟩
      [⟨0, .wantBlock, false⟩, ⟨7, .wantHave, true⟩] ⟨[], [], 0⟩
      = .ok ⟨[[1, 2]], [⟨7, .presDontHave⟩], 2⟩ := by decide

example :
    onMessageGo ⟨fun _ => .error .errNotFound, fun _ => (false, none)⟩ []
      [⟨7, .wantHave, false⟩] = (some .errNotHave, []) := by decide

theorem procEntries_append (bs : BStore) (l₁ l₂ : List WEntry) (r : RespState) :
    procEntries bs (l₁ ++ l₂) r =
      match procEntries bs l₁ r with
      | .error e => .error e
      | .ok r₁ => procEntries bs l₂ r₁ := by
  induction l₁ generalizing r with
  | nil => simp [procEntries]
  | cons e rest ih =>
    simp only [List.cons_append, procEntries]
    cases e.kind with
    | wantBlock =>
      by_cases hf : r.filled < MaxSendMsgSize
      · simp only [hf, if_true]
        cases bs.get e.cid <;> simp [ih]
      · simp only [hf, if_false]
        exact ih _
    | wantHave =>
      by_cases hh : (bs.has e.cid).2 = none ∧ (bs.has e.cid).1 = true
      · simp only [hh, if_true]
        exact ih _
      · simp only [hh, if_false]
        by_cases hs : e.sendDontHave = true
        · simp only [hs, if_true]
          exact ih _
        · simp only [hs, if_false]
          exact ih _

/-- C8: with the writer's fixed-capacity 5-slot queue already holding 5
unconsumed messages, `enqueue` fails immediately with `ErrOverflow` and
does not touch the queue (the failure result carries no new queue); with a
free slot it places the message at the back and returns a nil error. -/
theorem c8_queue_shedding (q : List (List Nat)) (m : List Nat) :
    (q.length = 5 → enqueueGo q m = .error .errOverflow) ∧
    (q.length < 5 → enqueueGo q m = .ok (q ++ [m])) := by
  constructor
  · intro h5
    simp [enqueueGo, h5]
  · intro hlt
    simp [enqueueGo, hlt]

theorem c8_queue_shedding_witness :
    enqueueGo [[0], [0], [0], [0], [0]] [7] = .error .errOverflow ∧
    enqueueGo [[0]] [7] = .ok [[0], [7]] :=
  ⟨(c8_queue_shedding [[0], [0], [0], [0], [0]] [7]).1 (by decide),
   (c8_queue_shedding [[0]] [7]).2 (by decide)⟩

/-- C10: the in-memory store's `Has` always returns a nil error, with the
boolean exactly reflecting membership of the identifier in the backing
map, so a `Have`-kind lookup against this store can never observe a store
error. -/
theorem c10_memstore_has_total (s : MemStore) (ctx : Unit) (c : Nat) :
    s.hasGo ctx c = ((s.db c).isSome, none) := by
  unfold MemStore.hasGo
  cases s.db c <;> simp

/-- C5 (amended): a response is enqueued if and only if `filled > 0` AND
the writer's queue has a free slot; with `filled = 0` nothing is enqueued
and `onMessage` returns `ErrNotHave`, and with `filled > 0` but the queue
full nothing is enqueued and `onMessage` returns `ErrOverflow`. -/
theorem c5_enqueue_iff_filled (bs : BStore) (q : List (List Nat))
    (entries : List WEntry) (r : RespState)
    (hp : procEntries bs entries ⟨[], [], 0⟩ = .ok r) :
    (r.filled = 0 → onMessageGo bs q entries = (some .errNotHave, q)) ∧
    (0 < r.filled → q.length < 5 →
      onMessageGo bs q entries = (none, q ++ [marshalResp r])) ∧
    (0 < r.filled → 5 ≤ q.length →
      onMessageGo bs q entries = (some .errOverflow, q)) := by
  refine ⟨fun h0 => ?_, fun hf hq => ?_, fun hf hq => ?_⟩
  · simp [onMessageGo, hp, h0]
  · simp [onMessageGo, hp, hf, enqueueGo, hq]
  · simp [onMessageGo, hp, hf, enqueueGo, Nat.not_lt.mpr hq]

theorem c5_enqueue_iff_filled_witness :
    procEntries ⟨fun _ => .ok [7], fun _ => (false, none)⟩
        [⟨0, .wantBlock, false⟩] ⟨[], [], 0⟩ = .ok ⟨[[7]], [], 1⟩ ∧
    onMessageGo ⟨fun _ => .ok [7], fun _ => (false, none)⟩ []
        [⟨0, .wantBlock, false⟩]
      = (none, [] ++ [marshalResp ⟨[[7]], [], 1⟩]) :=
  ⟨by decide,
   (c5_enqueue_iff_filled ⟨fun _ => .ok [7], fun _ => (false, none)⟩ []
      [⟨0, .wantBlock, false⟩] ⟨[[7]], [], 1⟩ (by decide)).2.1 (by decide) (by decide)⟩

/-- C5 counterexample: with the 5-slot queue full, `filled = 1 > 0` yet no
response is placed on the queue (it is returned unchanged) and `onMessage`
returns `ErrOverflow` — refuting "enqueues if and only if `filled > 0`". -/
theorem c5_enqueue_iff_filled_cex :
    procEntries ⟨fun _ => .ok [7], fun _ => (false, none)⟩
        [⟨0, .wantBlock, false⟩] ⟨[], [], 0⟩ = .ok ⟨[[7]], [], 1⟩ ∧
    onMessageGo ⟨fun _ => .ok [7], fun _ => (false, none)⟩
        [[0], [0], [0], [0], [0]] [⟨0, .wantBlock, false⟩]
      = (some .errOverflow, [[0], [0], [0], [0], [0]]) := by decide

/-- C6: for a `Have`-kind entry, after an error-free prefix of the
want-list, an identifier absent from the store (`Has` returns
`(false, nil)`) contributes a `DontHave` assertion exactly when the
entry's `send-dont-have` flag is set and contributes nothing otherwise,
while a present identifier (`Has` returns `(true, nil)`) contributes a
`Have` assertion; payloads and `filled` are untouched either way. -/
theorem c6_have_donthave (bs : BStore) (pre post : List WEntry) (e : WEntry)
    (r₀ r₁ : RespState)
    (hpre : procEntries bs pre r₀ = .ok r₁) (hk : e.kind = .wantHave) :
    (bs.has e.cid = (false, none) →
      procEntries bs (pre ++ e :: post) r₀ =
        procEntries bs post ⟨r₁.blocks,
          r₁.presences ++ (if e.sendDontHave then [⟨e.cid, .presDontHave⟩] else []),
          r₁.filled⟩) ∧
    (bs.has e.cid = (true, none) →
      procEntries bs (pre ++ e :: post) r₀ =
        procEntries bs post ⟨r₁.blocks, r₁.presences ++ [⟨e.cid, .presHave⟩],
          r₁.filled⟩) := by
  constructor
  · intro habsent
    rw [procEntries_append, hpre]
    simp only [procEntries, hk, habsent]
    cases hs : e.sendDontHave <;> simp
  · intro hpresent
    rw [procEntries_append, hpre]
    simp [procEntries, hk, hpresent]

theorem c6_have_donthave_witness :
    (procEntries ⟨fun _ => .error .errNotFound, fun _ => (false, none)⟩
        [] ⟨[], [], 0⟩ = .ok ⟨[], [], 0⟩ ∧
      (⟨9, .wantHave, true⟩ : WEntry).kind = .wantHave) ∧
    (procEntries ⟨fun _ => .error .errNotFound, fun _ => (false, none)⟩
        [(⟨9, .wantHave, true⟩ : WEntry)] ⟨[], [], 0⟩ =
      procEntries ⟨fun _ => .error .errNotFound, fun _ => (false, none)⟩ []
        ⟨[], [] ++ (if (⟨9, .wantHave, true⟩ : WEntry).sendDontHave
            then [⟨9, .presDontHave⟩] else []), 0⟩) :=
  ⟨⟨by decide, by decide⟩,
   by
    have h := (c6_have_donthave ⟨fun _ => .error .errNotFound, fun _ => (false, none)⟩
      [] [] ⟨9, .wantHave, true⟩ ⟨[], [], 0⟩ ⟨[], [], 0⟩ (by decide) (by decide)).1 (by decide)
    simpa using h⟩

/-- C2 counterexample: a store whose `Has` returns the error `other 7` on
a `Have`-kind entry does not abort `onMessage` with that error; the entry
is handled as absence (a `DontHave` assertion, the flag being set) and the
call ends with `ErrNotHave`, not with the store's error. -/
theorem c2_store_errors_cex :
    onMessageGo ⟨fun _ => .error (.other 7), fun _ => (false, some (.other 7))⟩ []
        [⟨0, .wantHave, true⟩]
      = (some .errNotHave, []) ∧ GoError.errNotHave ≠ .other 7 := by decide

/-- C2 (amended): an error returned by `Get` during a `Block`-kind entry
(reached with the budget not yet exhausted, after an error-free prefix)
aborts the whole request and `onMessage` returns exactly that error; an
error returned by `Has` during a `Have`-kind entry never aborts — the
entry is handled exactly as an absent identifier (a `DontHave` assertion
when `send-dont-have` is set, nothing otherwise) and processing
continues. -/
theorem c2_store_errors (bs : BStore) (pre post : List WEntry) (e : WEntry)
    (q : List (List Nat)) (r₁ : RespState) (err : GoError)
    (hpre : procEntries bs pre ⟨[], [], 0⟩ = .ok r₁) :
    (e.kind = .wantBlock → r₁.filled < MaxSendMsgSize → bs.get e.cid = .error err →
      onMessageGo bs q (pre ++ e :: post) = (some err, q)) ∧
    (e.kind = .wantHave → (bs.has e.cid).2 = some err →
      procEntries bs (pre ++ e :: post) ⟨[], [], 0⟩ =
        procEntries bs post ⟨r₁.blocks,
          r₁.presences ++ (if e.sendDontHave then [⟨e.cid, .presDontHave⟩] else []),
          r₁.filled⟩) := by
  constructor
  · intro hk hf hget
    unfold onMessageGo
    rw [procEntries_append, hpre]
    simp [procEntries, hk, hf, hget]
  · intro hk hhas
    rw [procEntries_append, hpre]
    have hne : ¬((bs.has e.cid).2 = none ∧ (bs.has e.cid).1 = true) := by
      intro hc
      rw [hc.1] at hhas
      exact Option.noConfusion hhas
    simp only [procEntries, hk, hne, if_false]
    cases hs : e.sendDontHave <;> simp

theorem c2_store_errors_witness :
    (procEntries ⟨fun _ => .error (.other 3), fun _ => (true, some (.other 4))⟩
        [] ⟨[], [], 0⟩ = .ok ⟨[], [], 0⟩ ∧
      (⟨1, .wantBlock, false⟩ : WEntry).kind = .wantBlock ∧
      (0 : Nat) < MaxSendMsgSize) ∧
    onMessageGo ⟨fun _ => .error (.other 3), fun _ => (true, some (.other 4))⟩ []
        ([] ++ (⟨1, .wantBlock, false⟩ : WEntry) :: []) = (some (.other 3), []) :=
  ⟨⟨by decide, by decide, by decide⟩,
   (c2_store_errors ⟨fun _ => .error (.other 3), fun _ => (true, some (.other 4))⟩
      [] [] ⟨1, .wantBlock, false⟩ [] ⟨[], [], 0⟩ (.other 3) (by decide)).1
     (by decide) (by decide) (by decide)⟩

theorem procEntries_filled_inv (bs : BStore) (B : Nat)
    (hB : ∀ c data, bs.get c = .ok data → data.length ≤ B) :
    ∀ (entries : List WEntry) (r r' : RespState),
      procEntries bs entries r = .ok r' →
      r.filled = payloadBytes r → r.filled ≤ MaxSendMsgSize - 1 + B →
      r'.filled = payloadBytes r' ∧ r'.filled ≤ MaxSendMsgSize - 1 + B := by
  intro entries
  induction entries with
  | nil =>
    intro r r' h hsum hle
    simp only [procEntries] at h
    cases h
    exact ⟨hsum, hle⟩
  | cons e rest ih =>
    intro r r' h hsum hle
    simp only [procEntries] at h
    cases hk : e.kind with
    | wantBlock =>
      rw [hk] at h
      by_cases hf : r.filled < MaxSendMsgSize
      · rw [if_pos hf] at h
        cases hg : bs.get e.cid with
        | error err => rw [hg] at h; exact absurd h (by simp)
        | ok data =>
          rw [hg] at h
          refine ih _ _ h ?_ ?_
          · simp only [payloadBytes, List.map_append, List.sum_append,
              List.map_cons, List.map_nil, List.sum_cons, List.sum_nil]
            simp only [payloadBytes] at hsum
            omega
          · have hdl : data.length ≤ B := hB _ _ hg
            have hmax : (0 : Nat) < MaxSendMsgSize := by decide
            show r.filled + data.length ≤ MaxSendMsgSize - 1 + B
            omega
      · rw [if_neg hf] at h
        exact ih _ _ h (by simpa [payloadBytes] using hsum) hle
    | wantHave =>
      rw [hk] at h
      by_cases hh : (bs.has e.cid).2 = none ∧ (bs.has e.cid).1 = true
      · rw [if_pos hh] at h
        exact ih _ _ h (by simpa [payloadBytes] using hsum) hle
      · rw [if_neg hh] at h
        by_cases hs : e.sendDontHave = true
        · rw [if_pos hs] at h
          exact ih _ _ h (by simpa [payloadBytes] using hsum) hle
        · rw [if_neg hs] at h
          exact ih _ _ h hsum hle

/-- C3 (amended): when every block the store can return is at most `B`
bytes, the raw payload bytes of the response built by `onMessage` total at
most `MaxSendMsgSize - 1 + B` (the budget check `filled < MaxSendMsgSize`
runs before each fetch, so the final block may overshoot the 3 MiB budget
by up to `B - 1` bytes), and `filled` equals that payload total. -/
theorem c3_payload_bound (bs : BStore) (entries : List WEntry) (B : Nat) (r : RespState)
    (hB : ∀ c data, bs.get c = .ok data → data.length ≤ B)
    (h : procEntries bs entries ⟨[], [], 0⟩ = .ok r) :
    payloadBytes r ≤ MaxSendMsgSize - 1 + B ∧ r.filled = payloadBytes r := by
  have := procEntries_filled_inv bs B hB entries ⟨[], [], 0⟩ r h
    (by simp [payloadBytes]) (by simp)
  exact ⟨this.1 ▸ this.2, this.1⟩

theorem c3_payload_bound_witness :
    ((∀ c data,
        (⟨fun _ => .ok [7], fun _ => (false, none)⟩ : BStore).get c = .ok data →
          data.length ≤ 1) ∧
      procEntries ⟨fun _ => .ok [7], fun _ => (false, none)⟩
        [⟨0, .wantBlock, false⟩] ⟨[], [], 0⟩ = .ok ⟨[[7]], [], 1⟩) ∧
    (payloadBytes ⟨[[7]], [], 1⟩ ≤ MaxSendMsgSize - 1 + 1 ∧
      (⟨[[7]], [], 1⟩ : RespState).filled = payloadBytes ⟨[[7]], [], 1⟩) :=
  have hB : ∀ c data,
      (⟨fun _ => .ok [7], fun _ => (false, none)⟩ : BStore).get c = .ok data →
        data.length ≤ 1 := by
    intro c data hd
    simp only [BStore.get] at hd
    cases hd
    decide
  ⟨⟨hB, by decide⟩,
   c3_payload_bound ⟨fun _ => .ok [7], fun _ => (false, none)⟩
     [⟨0, .wantBlock, false⟩] 1 ⟨[[7]], [], 1⟩ hB (by decide)⟩

/-- C3 counterexample: a single `Block`-kind entry whose stored payload is
`3 MiB + 1` bytes is fetched whole (the budget check runs before the
fetch), so the built response carries `3145729 > 3145728 = MaxSendMsgSize`
raw payload bytes — refuting "never exceeds 3 MiB regardless of how large
the stored blocks are". -/
theorem c3_payload_bound_cex :
    procEntries ⟨fun _ => .ok (List.replicate 3145729 0), fun _ => (false, none)⟩
        [⟨0, .wantBlock, false⟩] ⟨[], [], 0⟩
      = .ok ⟨[List.replicate 3145729 0], [], 3145729⟩ ∧
    MaxSendMsgSize < payloadBytes ⟨[List.replicate 3145729 0], [], 3145729⟩ := by
  have key : ∀ L : List Nat,
      procEntries ⟨fun _ => .ok L, fun _ => (false, none)⟩
        [⟨0, .wantBlock, false⟩] ⟨[], [], 0⟩ = .ok ⟨[L], [], L.length⟩ := by
    intro L
    have h0 : (0 : Nat) < MaxSendMsgSize := by decide
    simp [procEntries, h0]
  have hlen : (List.replicate 3145729 (0 : Nat)).length = 3145729 :=
    List.length_replicate _ _
  constructor
  · rw [key, hlen]
  · show MaxSendMsgSize < ([List.replicate 3145729 (0 : Nat)].map List.length).sum
    simp only [List.map_cons, List.map_nil, List.sum_cons, List.sum_nil, hlen]
    decide

theorem budgetSplit_of_not_lt (l : List Nat) (fl : Nat) (h : ¬ fl < MaxSendMsgSize) :
    budgetSplit l fl = 0 := by
  cases l <;> simp [budgetSplit, h]

theorem budgetSplit_prefix_sum (l : List Nat) :
    ∀ (fl j : Nat), j < budgetSplit l fl → fl + (l.take j).sum < MaxSendMsgSize := by
  induction l with
  | nil => intro fl j hj; simp [budgetSplit] at hj
  | cons s rest ih =>
    intro fl j hj
    simp only [budgetSplit] at hj
    by_cases hf : fl < MaxSendMsgSize
    · rw [if_pos hf] at hj
      cases j with
      | zero => simpa using hf
      | succ j' =>
        have := ih (fl + s) j' (by omega)
        simp only [List.take_succ_cons, List.sum_cons]
        omega
    · rw [if_neg hf] at hj
      omega

theorem procEntries_allBlock (bs : BStore) :
    ∀ (entries : List WEntry) (bl : List (List Nat)) (pr : List Pres) (fl : Nat),
      (∀ e ∈ entries, e.kind = .wantBlock) →
      (∀ e ∈ entries, ∃ data, bs.get e.cid = .ok data) →
      procEntries bs entries ⟨bl, pr, fl⟩ =
        .ok ⟨bl ++ ((entries.take (budgetSplit (entries.map fun e =>
                (blockData bs e.cid).length) fl)).map fun e => blockData bs e.cid),
             pr ++ ((entries.drop (budgetSplit (entries.map fun e =>
                (blockData bs e.cid).length) fl)).map fun e => (⟨e.cid, .presHave⟩ : Pres)),
             fl + (((entries.take (budgetSplit (entries.map fun e =>
                (blockData bs e.cid).length) fl)).map fun e =>
                  (blockData bs e.cid).length).sum)⟩ := by
  intro entries
  induction entries with
  | nil =>
    intro bl pr fl _ _
    simp [procEntries, budgetSplit]
  | cons e rest ih =>
    intro bl pr fl hk hok
    obtain ⟨data, hge⟩ := hok e (by simp)
    have hbd : blockData bs e.cid = data := by
      rw [blockData, hge]
      rfl
    have hke : e.kind = .wantBlock := hk e (by simp)
    simp only [procEntries, hke]
    by_cases hf : fl < MaxSendMsgSize
    · simp only [if_pos hf, hge]
      rw [ih (bl ++ [data]) pr (fl + data.length)
        (fun x hx => hk x (by simp [hx])) (fun x hx => hok x (by simp [hx]))]
      simp only [List.map_cons, budgetSplit, hbd, if_pos hf]
      refine ?_
      simp only [Nat.one_add, List.take_succ_cons, List.drop_succ_cons, List.sum_cons,
        List.append_assoc, Nat.add_assoc, List.singleton_append]
      simp [hbd]
    · simp only [if_neg hf]
      have ihh := ih bl (pr ++ [(⟨e.cid, .presHave⟩ : Pres)]) fl
        (fun x hx => hk x (by simp [hx])) (fun x hx => hok x (by simp [hx]))
      rw [ihh]
      simp [budgetSplit_of_not_lt _ _ hf, List.append_assoc]

theorem procEntries_allBlock_agree (bs bs' : BStore) :
    ∀ (entries : List WEntry) (bl : List (List Nat)) (pr : List Pres) (fl : Nat),
      (∀ e ∈ entries, e.kind = .wantBlock) →
      (∀ e ∈ entries.take (budgetSplit (entries.map fun e =>
          (blockData bs e.cid).length) fl), bs'.get e.cid = bs.get e.cid) →
      procEntries bs' entries ⟨bl, pr, fl⟩ = procEntries bs entries ⟨bl, pr, fl⟩ := by
  intro entries
  induction entries with
  | nil => intro bl pr fl _ _; simp [procEntries]
  | cons e rest ih =>
    intro bl pr fl hk hag
    have hke : e.kind = .wantBlock := hk e (by simp)
    have hsplit : ∀ sz : Nat, fl < MaxSendMsgSize →
        budgetSplit (sz :: List.map (fun x => (blockData bs x.cid).length) rest) fl
          = 1 + budgetSplit (List.map (fun x => (blockData bs x.cid).length) rest)
              (fl + sz) := by
      intro sz hfl
      simp [budgetSplit, hfl]
    simp only [procEntries, hke]
    by_cases hf : fl < MaxSendMsgSize
    · simp only [if_pos hf]
      have hage : bs'.get e.cid = bs.get e.cid := by
        apply hag e
        rw [List.map_cons, hsplit _ hf, Nat.one_add, List.take_succ_cons]
        simp
      rw [hage]
      cases hge : bs.get e.cid with
      | error err => rfl
      | ok data =>
        apply ih (bl ++ [data]) pr (fl + data.length)
          (fun x hx => hk x (by simp [hx]))
        intro x hx
        apply hag x
        have hbd : blockData bs e.cid = data := by
          rw [blockData, hge]
          rfl
        rw [List.map_cons, hbd, hsplit _ hf, Nat.one_add, List.take_succ_cons]
        simp [hx]
    · simp only [if_neg hf]
      apply ih bl (pr ++ [(⟨e.cid, .presHave⟩ : Pres)]) fl
        (fun x hx => hk x (by simp [hx]))
      rw [budgetSplit_of_not_lt _ _ hf]
      intro x hx
      simp at hx

/-- C4 (amended): for a request of `Block`-kind entries all present in the
store, the response carries raw payloads for exactly the prefix of entries
fetched while `filled` was still under the 3 MiB budget and a `Have`
presence assertion for each remaining entry, in request order with no
entry dropped; every fetch starts strictly under the budget (so the
payload total may exceed 3 MiB only by the final block's overshoot, and
the claim's "sizes sum to at most the budget" fails — see the
counterexample); and the result never depends on the store's payloads for
the remaining entries (they are not fetched). -/
theorem c4_budget_degradation (bs : BStore) (entries : List WEntry)
    (hk : ∀ e ∈ entries, e.kind = .wantBlock)
    (hok : ∀ e ∈ entries, ∃ data, bs.get e.cid = .ok data) :
    procEntries bs entries ⟨[], [], 0⟩ =
      .ok ⟨(entries.take (budgetSplit (entries.map fun e =>
              (blockData bs e.cid).length) 0)).map (fun e => blockData bs e.cid),
           (entries.drop (budgetSplit (entries.map fun e =>
              (blockData bs e.cid).length) 0)).map (fun e => (⟨e.cid, .presHave⟩ : Pres)),
           ((entries.take (budgetSplit (entries.map fun e =>
              (blockData bs e.cid).length) 0)).map fun e =>
                (blockData bs e.cid).length).sum⟩ ∧
    (∀ j, j < budgetSplit (entries.map fun e => (blockData bs e.cid).length) 0 →
      ((entries.map fun e => (blockData bs e.cid).length).take j).sum < MaxSendMsgSize) ∧
    (∀ bs' : BStore,
      (∀ e ∈ entries.take (budgetSplit (entries.map fun e =>
          (blockData bs e.cid).length) 0), bs'.get e.cid = bs.get e.cid) →
      procEntries bs' entries ⟨[], [], 0⟩ = procEntries bs entries ⟨[], [], 0⟩) := by
  refine ⟨?_, ?_, ?_⟩
  · have h := procEntries_allBlock bs entries [] [] 0 hk hok
    simpa using h
  · intro j hj
    have h := budgetSplit_prefix_sum (entries.map fun e => (blockData bs e.cid).length) 0 j hj
    simpa using h
  · intro bs' hagree
    exact procEntries_allBlock_agree bs bs' entries [] [] 0 hk hagree

theorem c4_budget_degradation_witness :
    ((∀ e ∈ [(⟨0, .wantBlock, false⟩ : WEntry)], e.kind = WantKind.wantBlock) ∧
      (∀ e ∈ [(⟨0, .wantBlock, false⟩ : WEntry)], ∃ data,
        (⟨fun _ => .ok [5], fun _ => (false, none)⟩ : BStore).get e.cid = .ok data)) ∧
    procEntries ⟨fun _ => .ok [5], fun _ => (false, none)⟩
        [(⟨0, .wantBlock, false⟩ : WEntry)] ⟨[], [], 0⟩ =
      .ok ⟨([(⟨0, .wantBlock, false⟩ : WEntry)].take
              (budgetSplit ([(⟨0, .wantBlock, false⟩ : WEntry)].map fun e =>
                (blockData ⟨fun _ => .ok [5], fun _ => (false, none)⟩ e.cid).length) 0)).map
              (fun e => blockData ⟨fun _ => .ok [5], fun _ => (false, none)⟩ e.cid),
            ([(⟨0, .wantBlock, false⟩ : WEntry)].drop
              (budgetSplit ([(⟨0, .wantBlock, false⟩ : WEntry)].map fun e =>
                (blockData ⟨fun _ => .ok [5], fun _ => (false, none)⟩ e.cid).length) 0)).map
              (fun e => (⟨e.cid, .presHave⟩ : Pres)),
            (([(⟨0, .wantBlock, false⟩ : WEntry)].take
              (budgetSplit ([(⟨0, .wantBlock, false⟩ : WEntry)].map fun e =>
                (blockData ⟨fun _ => .ok [5], fun _ => (false, none)⟩ e.cid).length) 0)).map
              fun e => (blockData ⟨fun _ => .ok [5], fun _ => (false, none)⟩ e.cid).length).sum⟩ :=
  have hk : ∀ e ∈ [(⟨0, .wantBlock, false⟩ : WEntry)], e.kind = WantKind.wantBlock := by
    decide
  have hok : ∀ e ∈ [(⟨0, .wantBlock, false⟩ : WEntry)], ∃ data,
      (⟨fun _ => .ok [5], fun _ => (false, none)⟩ : BStore).get e.cid = .ok data :=
    fun e _ => ⟨[5], rfl⟩
  ⟨⟨hk, hok⟩,
   (c4_budget_degradation ⟨fun _ => .ok [5], fun _ => (false, none)⟩
     [(⟨0, .wantBlock, false⟩ : WEntry)] hk hok).1⟩

/-- C4 counterexample: two `Block`-kind entries whose stored payloads are
`3 MiB + 1` bytes and 1 byte; the response is the payload prefix for the
first entry and a `Have` assertion for the second, but the prefix's
payload sizes sum to `3145729 > 3145728 = MaxSendMsgSize` — refuting the
claim's "whose sizes sum to at most the budget". -/
theorem c4_budget_degradation_cex :
    procEntries ⟨fun c => if c = 0 then .ok (List.replicate 3145729 0) else .ok [9],
        fun _ => (false, none)⟩
      [⟨0, .wantBlock, false⟩, ⟨1, .wantBlock, false⟩] ⟨[], [], 0⟩
      = .ok ⟨[List.replicate 3145729 0], [⟨1, .presHave⟩], 3145729⟩ ∧
    MaxSendMsgSize <
      payloadBytes ⟨[List.replicate 3145729 0], [⟨1, .presHave⟩], 3145729⟩ := by
  have hlen : (List.replicate 3145729 (0 : Nat)).length = 3145729 :=
    List.length_replicate _ _
  have key : ∀ L : List Nat, MaxSendMsgSize ≤ L.length →
      procEntries ⟨fun c => if c = 0 then .ok L else .ok [9], fun _ => (false, none)⟩
        [⟨0, .wantBlock, false⟩, ⟨1, .wantBlock, false⟩] ⟨[], [], 0⟩
        = .ok ⟨[L], [⟨1, .presHave⟩], L.length⟩ := by
    intro L hge
    have h0 : (0 : Nat) < MaxSendMsgSize := by decide
    have hnl : ¬ (L.length < MaxSendMsgSize) := by omega
    simp [procEntries, h0, hnl]
  constructor
  · rw [key _ (by rw [hlen]; decide), hlen]
  · show MaxSendMsgSize < ([List.replicate 3145729 (0 : Nat)].map List.length).sum
    simp only [List.map_cons, List.map_nil, List.sum_cons, List.sum_nil, hlen]
    decide

/-- C7: when the frame reader is awaiting a header (`msgLen == 0`) and the
varint prefix decoded from the buffer after the next read declares a body
length greater than the protocol's maximum block size `mbs`, the
connection is closed and the loop terminates with exactly the previously
delivered bodies — the oversized frame is never handed to the request
processor. -/
theorem c7_oversized_rejection (mbs : Nat) (handle : List Nat → Option GoError)
    (stream : List Nat) (sz : Nat) (sizes : List Nat) (st : RdState)
    (acc : List (List Nat))
    (hmsg : st.msgLen = 0) (hne : ¬ stream = [])
    (hlen : 0 < (uvarintGo (bufWrite st.f st.pos
      (stream.take (min sz (min stream.length (st.bufLen - st.pos))))) st.bufLen).2)
    (hover : mbs < (uvarintGo (bufWrite st.f st.pos
      (stream.take (min sz (min stream.length (st.bufLen - st.pos))))) st.bufLen).1) :
    runLoop mbs handle stream (sz :: sizes) st acc = .closed acc := by
  have hstep : readStep mbs handle st
      (stream.take (min sz (min stream.length (st.bufLen - st.pos)))) = .closed := by
    unfold readStep
    simp only [hmsg, if_pos]
    rw [if_neg (by omega), if_pos hover]
  simp only [runLoop, if_neg hne]
  rw [hstep]

theorem c7_oversized_rejection_witness :
    (initSt.msgLen = 0 ∧ ¬ ([200, 5] : List Nat) = [] ∧
      0 < (uvarintGo (bufWrite initSt.f initSt.pos
        (([200, 5] : List Nat).take (min 2 (min ([200, 5] : List Nat).length
          (initSt.bufLen - initSt.pos))))) initSt.bufLen).2 ∧
      (16 : Nat) < (uvarintGo (bufWrite initSt.f initSt.pos
        (([200, 5] : List Nat).take (min 2 (min ([200, 5] : List Nat).length
          (initSt.bufLen - initSt.pos))))) initSt.bufLen).1) ∧
    runLoop 16 (fun _ => none) [200, 5] [2] initSt [] = .closed [] :=
  ⟨⟨rfl, by decide, by decide, by decide⟩,
   c7_oversized_rejection 16 (fun _ => none) [200, 5] 2 [] initSt []
     rfl (by decide) (by decide) (by decide)⟩

/-- C9 counterexample: from the initial state, a first read delivering the
4-byte prefix `[253, 255, 255, 1]` (declaring a body of 4194301 bytes,
within a 4 MiB maximum block size) passes the size checks without
reallocating — `nextLen > len(buf)` compares the body length alone — and
leaves `msgLen = 4194305 > 4194304 = len(buf)`: the buffer is smaller
than the frame's total declared length, refuting the claimed invariant.
(The loop can then never reach `pos == msgLen`, stalling this frame.) -/
theorem c9_buffer_fits_cex :
    ((runLoop 4194304 (fun _ => none) [253, 255, 255, 1] [4] initSt []).pendSt).bufLen
        < ((runLoop 4194304 (fun _ => none) [253, 255, 255, 1] [4] initSt []).pendSt).msgLen
      ∧ ((runLoop 4194304 (fun _ => none) [253, 255, 255, 1] [4] initSt []).pendSt).msgLen
        = 4194305
      ∧ ((runLoop 4194304 (fun _ => none) [253, 255, 255, 1] [4] initSt []).pendSt).bufLen
        = 4194304 := by
  refine ⟨?_, ?_, ?_⟩ <;> decide

/-- C9 (amended): across any continuing `readLoop` iteration the buffer
never shrinks; iterations that are not header parses keep it unchanged;
and after a header parse the buffer holds at least the declared BODY
length (`msgLen - prefixLen` — not the full `msgLen`, see the
counterexample), where a reallocation (triggered when the body length
alone exceeds the current capacity) resizes to exactly
`prefixLen + bodyLen = msgLen` and preserves the first `len(buf)` bytes
as just written. -/
theorem c9_buffer_growth (mbs : Nat) (handle : List Nat → Option GoError)
    (st : RdState) (chunk : List Nat) (st' : RdState) (dv : List (List Nat))
    (hstep : readStep mbs handle st chunk = .next st' dv) :
    st.bufLen ≤ st'.bufLen ∧
    (st.msgLen ≠ 0 → st'.bufLen = st.bufLen) ∧
    (st.msgLen = 0 → st'.msgLen ≠ 0 →
      st'.msgLen - st'.prefixLen ≤ st'.bufLen ∧
      (st.bufLen < st'.msgLen - st'.prefixLen →
        st'.bufLen = st'.msgLen ∧
        ∀ j, j < st.bufLen → st'.f j = bufWrite st.f st.pos chunk j)) := by
  unfold readStep at hstep
  by_cases hm : st.msgLen = 0
  · simp only [hm, if_pos] at hstep
    by_cases h2 : (uvarintGo (bufWrite st.f st.pos chunk) st.bufLen).2 ≤ 0
    · rw [if_pos h2] at hstep
      exact absurd hstep (by simp)
    · rw [if_neg h2] at hstep
      by_cases h3 : mbs < (uvarintGo (bufWrite st.f st.pos chunk) st.bufLen).1
      · rw [if_pos h3] at hstep
        exact absurd hstep (by simp)
      · rw [if_neg h3] at hstep
        unfold dispatchCheck at hstep
        by_cases hre : st.bufLen < (uvarintGo (bufWrite st.f st.pos chunk) st.bufLen).1
        · simp only [if_pos hre] at hstep
          split at hstep
          · split at hstep
            · exact absurd hstep (by simp)
            · cases hstep
              dsimp only
              refine ⟨by omega, fun hne => absurd hm hne, fun _ hne => absurd rfl hne⟩
          · cases hstep
            dsimp only
            refine ⟨by omega, fun hne => absurd hm hne, fun _ _ => ?_⟩
            refine ⟨by omega, fun _ => ⟨by omega, fun j hj => ?_⟩⟩
            simp [if_pos hj]
        · simp only [if_neg hre] at hstep
          split at hstep
          · split at hstep
            · exact absurd hstep (by simp)
            · cases hstep
              dsimp only
              refine ⟨by omega, fun hne => absurd hm hne, fun _ hne => absurd rfl hne⟩
          · cases hstep
            dsimp only
            refine ⟨by omega, fun hne => absurd hm hne, fun _ _ => ?_⟩
            refine ⟨by omega, fun hlt => absurd hlt (by omega)⟩
  · simp only [if_neg hm] at hstep
    unfold dispatchCheck at hstep
    split at hstep
    · split at hstep
      · exact absurd hstep (by simp)
      · cases hstep
        dsimp only
        exact ⟨le_refl _, fun _ => rfl, fun h0 => absurd h0 hm⟩
    · cases hstep
      dsimp only
      exact ⟨le_refl _, fun _ => rfl, fun h0 => absurd h0 hm⟩

theorem putUvarintAux_length_pos (fuel x : Nat) : 0 < (putUvarintAux fuel x).length := by
  cases fuel with
  | zero => simp [putUvarintAux]
  | succ n =>
    rw [putUvarintAux]
    split <;> simp

theorem putUvarintAux_length_le :
    ∀ (fuel x k : Nat), 0 < k → k ≤ fuel + 1 → x < 128 ^ k →
      (putUvarintAux fuel x).length ≤ k := by
  intro fuel
  induction fuel with
  | zero => intro x k hk _ _; simpa [putUvarintAux] using hk
  | succ n ih =>
    intro x k hk hkf hx
    rw [putUvarintAux]
    by_cases hlt : x < 128
    · simpa [hlt] using hk
    · rw [if_neg hlt]
      have hk2 : 2 ≤ k := by
        by_contra hc
        have hk1 : k = 1 := by omega
        rw [hk1] at hx
        simp at hx
        omega
      have hx' : x / 128 < 128 ^ (k - 1) := by
        have h128 : (0 : Nat) < 128 := by decide
        rw [Nat.div_lt_iff_lt_mul h128]
        calc x < 128 ^ k := hx
        _ = 128 ^ (k - 1) * 128 := by
          rw [← pow_succ]
          congr 1
          omega
      have := ih (x / 128) (k - 1) (by omega) (by omega) hx'
      simp only [List.length_cons]
      omega

theorem uvarint_round (fe : Nat) :
    ∀ (n : Nat) (f : Nat → Nat) (fuel i x s : Nat),
      n < 128 ^ fe →
      (∀ j, j < (putUvarintAux fe n).length → f (i + j) = (putUvarintAux fe n).getD j 0) →
      i + (putUvarintAux fe n).length ≤ 9 →
      (putUvarintAux fe n).length ≤ fuel →
      uvarintAux f fuel i x s
        = (x + n * 2 ^ s, ((i + (putUvarintAux fe n).length : Nat) : Int)) := by
  induction fe with
  | zero =>
    intro n f fuel i x s hn hag hi hfuel
    have hn0 : n = 0 := by simpa using hn
    subst hn0
    simp only [putUvarintAux, List.length_cons, List.length_nil] at hag hi hfuel ⊢
    obtain ⟨fu, rfl⟩ : ∃ fu, fuel = fu + 1 := ⟨fuel - 1, by omega⟩
    rw [uvarintAux]
    have hb : f i = 0 := by simpa using hag 0 (by omega)
    rw [if_neg (by omega)]
    simp only [hb]
    rw [if_pos (by decide)]
    rw [if_neg (by omega)]
    simp
  | succ fe ih =>
    intro n f fuel i x s hn hag hi hfuel
    by_cases hlt : n < 128
    · simp only [putUvarintAux, if_pos hlt, List.length_cons, List.length_nil] at hag hi hfuel ⊢
      obtain ⟨fu, rfl⟩ : ∃ fu, fuel = fu + 1 := ⟨fuel - 1, by omega⟩
      rw [uvarintAux]
      have hb : f i = n := by simpa using hag 0 (by omega)
      rw [if_neg (by omega)]
      simp only [hb]
      rw [if_pos hlt]
      rw [if_neg (by omega)]
      rw [Prod.mk.injEq]
      exact ⟨rfl, by push_cast; ring⟩
    · have hrec : putUvarintAux (fe + 1) n = (n % 128 + 128) :: putUvarintAux fe (n / 128) := by
        rw [putUvarintAux, if_neg hlt]
      simp only [hrec, List.length_cons] at hag hi hfuel ⊢
      obtain ⟨fu, rfl⟩ : ∃ fu, fuel = fu + 1 := ⟨fuel - 1, by omega⟩
      rw [uvarintAux]
      have hb : f i = n % 128 + 128 := by simpa using hag 0 (by omega)
      rw [if_neg (by omega)]
      simp only [hb]
      rw [if_neg (by omega)]
      have hmod : (n % 128 + 128) % 128 = n % 128 := by omega
      rw [hmod]
      have hdiv : n / 128 < 128 ^ fe := by
        have h128 : (0 : Nat) < 128 := by decide
        rw [Nat.div_lt_iff_lt_mul h128]
        calc n < 128 ^ (fe + 1) := hn
        _ = 128 ^ fe * 128 := by rw [pow_succ]
      have hag' : ∀ j, j < (putUvarintAux fe (n / 128)).length →
          f (i + 1 + j) = (putUvarintAux fe (n / 128)).getD j 0 := by
        intro j hj
        have := hag (j + 1) (by omega)
        simpa [Nat.add_assoc, Nat.add_comm 1 j] using this
      have := ih (n / 128) f fu (i + 1) (x + n % 128 * 2 ^ s) (s + 7) hdiv hag'
        (by omega) (by omega)
      rw [this]
      rw [Prod.mk.injEq]
      refine ⟨?_, ?_⟩
      · have h27 : (2 : Nat) ^ (s + 7) = 2 ^ s * 128 := by
          rw [pow_add]
          norm_num
        rw [h27]
        have hmd : n % 128 + n / 128 * 128 = n := by omega
        calc x + n % 128 * 2 ^ s + n / 128 * (2 ^ s * 128)
            = x + (n % 128 + n / 128 * 128) * 2 ^ s := by ring
        _ = x + n * 2 ^ s := by rw [hmd]
      · push_cast
        omega

theorem uvarintGo_putUvarint (f : Nat → Nat) (len n : Nat)
    (hn : n < 128 ^ 4)
    (hag : ∀ j, j < (putUvarint n).length → f j = (putUvarint n).getD j 0)
    (hlen : (putUvarint n).length ≤ len) :
    uvarintGo f len = (n, ((putUvarint n).length : Int)) := by
  have h4 : (putUvarint n).length ≤ 4 :=
    putUvarintAux_length_le 10 n 4 (by omega) (by omega) hn
  have hn10 : n < 128 ^ 10 := by
    calc n < 128 ^ 4 := hn
    _ ≤ 128 ^ 10 := Nat.pow_le_pow_right (by decide) (by omega)
  have h9 : 0 + (putUvarint n).length ≤ 9 := by omega
  have hag' : ∀ j, j < (putUvarintAux 10 n).length →
      f (0 + j) = (putUvarintAux 10 n).getD j 0 := by
    intro j hj
    simpa [putUvarint] using hag j (by simpa [putUvarint] using hj)
  have := uvarint_round 10 n f len 0 0 0 hn10 hag' h9 hlen
  simpa [uvarintGo, putUvarint] using this

theorem getD_eq_getElem_of_lt (l : List Nat) (n : Nat) (h : n < l.length) :
    l.getD n 0 = l[n] := by
  rw [List.getD_eq_getElem?_getD, List.getElem?_eq_getElem h]
  rfl

theorem getD_append_of_lt (l1 l2 : List Nat) (n : Nat) (h : n < l1.length) :
    (l1 ++ l2).getD n 0 = l1.getD n 0 := by
  rw [List.getD_eq_getElem?_getD, List.getD_eq_getElem?_getD,
    List.getElem?_append_left h]

theorem getD_drop (l : List Nat) (i j : Nat) :
    (l.drop i).getD j 0 = l.getD (i + j) 0 := by
  rw [List.getD_eq_getElem?_getD, List.getD_eq_getElem?_getD, List.getElem?_drop]

theorem bufWrite_lt (f : Nat → Nat) (p : Nat) (c : List Nat) (j : Nat) (h : j < p) :
    bufWrite f p c j = f j := by
  simp only [bufWrite]
  rw [if_neg (by omega)]

theorem bufWrite_in (f : Nat → Nat) (p : Nat) (c : List Nat) (j : Nat)
    (h1 : p ≤ j) (h2 : j < p + c.length) :
    bufWrite f p c j = c.getD (j - p) 0 := by
  simp only [bufWrite]
  rw [if_pos (by omega)]

theorem agrees_bufWrite (f : Nat → Nat) (L : List Nat) (p : Nat) (c : List Nat)
    (hag : AgreesPrefix f L p)
    (hc : ∀ j, j < c.length → c.getD j 0 = L.getD (p + j) 0) :
    AgreesPrefix (bufWrite f p c) L (p + c.length) := by
  intro j hj
  by_cases h : j < p
  · rw [bufWrite_lt _ _ _ _ h]
    exact hag j h
  · rw [bufWrite_in _ _ _ _ (by omega) (by omega)]
    have := hc (j - p) (by omega)
    rw [this]
    congr 1
    omega

theorem chunk_getD_of_flatten (L : List Nat) (pos : Nat) (c : List Nat)
    (cs : List (List Nat)) (hf : (c :: cs).flatten = L.drop pos)
    (j : Nat) (hj : j < c.length) :
    c.getD j 0 = L.getD (pos + j) 0 := by
  have h1 : c ++ cs.flatten = L.drop pos := by simpa using hf
  calc c.getD j 0 = (c ++ cs.flatten).getD j 0 := (getD_append_of_lt _ _ _ hj).symm
  _ = (L.drop pos).getD j 0 := by rw [h1]
  _ = L.getD (pos + j) 0 := getD_drop _ _ _

theorem bufSlice_eq_drop (f : Nat → Nat) (L : List Nat) (a : Nat)
    (hag : AgreesPrefix f L L.length) (ha : a ≤ L.length) :
    bufSlice f a L.length = L.drop a := by
  apply List.ext_getElem
  · simp [bufSlice]
  · intro i h1 h2
    simp only [bufSlice, List.getElem_map, List.getElem_range]
    have hia : a + i < L.length := by
      simp only [bufSlice, List.length_map, List.length_range] at h1
      omega
    rw [hag (a + i) hia, getD_eq_getElem_of_lt _ _ hia, List.getElem_drop]

theorem runLoop_cons (mbs : Nat) (handle : List Nat → Option GoError)
    (stream : List Nat) (sz : Nat) (sizes : List Nat) (st : RdState)
    (acc : List (List Nat)) (hne : ¬ stream = []) :
    runLoop mbs handle stream (sz :: sizes) st acc
      = match readStep mbs handle st
          (stream.take (min sz (min stream.length (st.bufLen - st.pos)))) with
        | .closed => .closed acc
        | .next st' d => runLoop mbs handle
            (stream.drop (min sz (min stream.length (st.bufLen - st.pos))))
            sizes st' (acc ++ d) := by
  simp only [runLoop, if_neg hne]

theorem readStep_body (mbs : Nat) (handle : List Nat → Option GoError)
    (st : RdState) (chunk : List Nat) (hm : ¬ st.msgLen = 0) :
    readStep mbs handle st chunk
      = dispatchCheck handle (bufWrite st.f st.pos chunk) st.bufLen
          (st.pos + chunk.length) st.prefixLen st.msgLen := by
  simp only [readStep, if_neg hm]

theorem readStep_header (mbs : Nat) (handle : List Nat → Option GoError)
    (st : RdState) (chunk : List Nat) (n pl : Nat)
    (hm : st.msgLen = 0)
    (hu : uvarintGo (bufWrite st.f st.pos chunk) st.bufLen = (n, (pl : Int)))
    (hpl : 0 < pl) (hnm : ¬ mbs < n) (hnb : ¬ st.bufLen < n) :
    readStep mbs handle st chunk
      = dispatchCheck handle (bufWrite st.f st.pos chunk) st.bufLen
          chunk.length pl (n + pl) := by
  simp only [readStep, hm, if_pos, hu]
  rw [if_neg (by omega), if_neg hnm]
  simp only [if_neg hnb, Int.toNat_natCast]

theorem flatten_nil_of_mem_ne (cs : List (List Nat))
    (hne : ∀ c ∈ cs, c ≠ []) (h : cs.flatten.length = 0) : cs = [] := by
  cases cs with
  | nil => rfl
  | cons c t =>
    exfalso
    have hc : c ≠ [] := hne c (by simp)
    have : c.length = 0 := by
      simp only [List.flatten_cons, List.length_append] at h
      omega
    exact hc (List.length_eq_zero.mp this)

theorem runLoop_accum (mbs : Nat) (handle : List Nat → Option GoError)
    (frame : List Nat) (pl : Nat) (rest restSizes : List Nat)
    (hpl : pl ≤ frame.length)
    (hmax : frame.length ≤ 4 * 1024 * 1024)
    (hh : handle (frame.drop pl) = none) :
    ∀ (cs : List (List Nat)) (f : Nat → Nat) (pos : Nat) (acc : List (List Nat)),
      (∀ c ∈ cs, c ≠ []) →
      cs.flatten = frame.drop pos →
      pos < frame.length →
      AgreesPrefix f frame pos →
      ∃ f2, runLoop mbs handle (frame.drop pos ++ rest) (cs.map List.length ++ restSizes)
          ⟨f, 4 * 1024 * 1024, pos, pl, frame.length⟩ acc
        = runLoop mbs handle rest restSizes ⟨f2, 4 * 1024 * 1024, 0, 0, 0⟩
            (acc ++ [frame.drop pl]) := by
  intro cs
  induction cs with
  | nil =>
    intro f pos acc _ hflat hpos _
    exfalso
    have := congrArg List.length hflat
    simp only [List.flatten_nil, List.length_nil, List.length_drop] at this
    omega
  | cons c cs' ih =>
    intro f pos acc hne hflat hpos hag
    have hflat' : c ++ cs'.flatten = frame.drop pos := by simpa using hflat
    have hclen : c.length + cs'.flatten.length = frame.length - pos := by
      have h := congrArg List.length hflat'
      simpa [List.length_append, List.length_drop] using h
    have hcle : c.length ≤ frame.length - pos := by omega
    have hstr : frame.drop pos ++ rest = c ++ (cs'.flatten ++ rest) := by
      rw [← hflat', List.append_assoc]
    have hcne : c ≠ [] := hne c (by simp)
    have hsne : ¬ (frame.drop pos ++ rest) = [] := by
      rw [hstr]
      simp [hcne]
    rw [List.map_cons, List.cons_append,
      runLoop_cons mbs handle _ _ _ _ _ hsne]
    have hslen : (frame.drop pos ++ rest).length = (frame.length - pos) + rest.length := by
      simp [List.length_append, List.length_drop]
    have hk : min c.length (min (frame.drop pos ++ rest).length
        ((⟨f, 4 * 1024 * 1024, pos, pl, frame.length⟩ : RdState).bufLen -
         (⟨f, 4 * 1024 * 1024, pos, pl, frame.length⟩ : RdState).pos)) = c.length := by
      dsimp only
      omega
    rw [hk]
    have htake : (frame.drop pos ++ rest).take c.length = c := by
      rw [hstr, List.take_left]
    have hdrop : (frame.drop pos ++ rest).drop c.length = cs'.flatten ++ rest := by
      rw [hstr, List.drop_left]
    rw [htake, hdrop]
    have hm0 : ¬ ((⟨f, 4 * 1024 * 1024, pos, pl, frame.length⟩ : RdState).msgLen = 0) := by
      dsimp only
      omega
    rw [readStep_body mbs handle _ c hm0]
    dsimp only
    have hag1 : AgreesPrefix (bufWrite f pos c) frame (pos + c.length) :=
      agrees_bufWrite f frame pos c hag (chunk_getD_of_flatten frame pos c cs' hflat)
    by_cases hend : pos + c.length = frame.length
    · have hag2 : AgreesPrefix (bufWrite f pos c) frame frame.length := by
        rw [← hend]
        exact hag1
      have hslice : bufSlice (bufWrite f pos c) pl frame.length = frame.drop pl :=
        bufSlice_eq_drop _ _ _ hag2 hpl
      have hcs' : cs' = [] := by
        apply flatten_nil_of_mem_ne cs' (fun x hx => hne x (by simp [hx]))
        omega
      subst hcs'
      simp only [dispatchCheck, if_pos hend, hslice, hh]
      exact ⟨bufWrite f pos c, rfl⟩
    · have hlt : pos + c.length < frame.length := by omega
      simp only [dispatchCheck, if_neg hend]
      have hflat2 : cs'.flatten = frame.drop (pos + c.length) := by
        have h1 : (c ++ cs'.flatten).drop c.length = cs'.flatten := List.drop_left _ _
        rw [hflat'] at h1
        rw [← h1, List.drop_drop]
      have hstr2 : cs'.flatten ++ rest = frame.drop (pos + c.length) ++ rest := by
        rw [hflat2]
      rw [hstr2]
      obtain ⟨f2, heq⟩ := ih (bufWrite f pos c) (pos + c.length) acc
        (fun x hx => hne x (by simp [hx])) hflat2 hlt hag1
      refine ⟨f2, ?_⟩
      simpa using heq

theorem runLoop_frame (mbs : Nat) (handle : List Nat → Option GoError)
    (body : List Nat) (cs : List (List Nat)) (f : Nat → Nat)
    (rest restSizes : List Nat) (acc : List (List Nat))
    (hgc : goodChunks (encodeFrame body) (putUvarint body.length).length cs)
    (hmb : body.length ≤ mbs)
    (hfit : body.length + (putUvarint body.length).length ≤ 4 * 1024 * 1024)
    (hh : handle body = none) :
    ∃ f2, runLoop mbs handle (encodeFrame body ++ rest) (cs.map List.length ++ restSizes)
        ⟨f, 4 * 1024 * 1024, 0, 0, 0⟩ acc
      = runLoop mbs handle rest restSizes ⟨f2, 4 * 1024 * 1024, 0, 0, 0⟩
          (acc ++ [body]) := by
  obtain ⟨hcs0, hcsne, hflat, hhead⟩ := hgc
  obtain ⟨c0, cs', rfl⟩ : ∃ c0 cs', cs = c0 :: cs' := by
    cases cs with
    | nil => exact absurd rfl hcs0
    | cons a t => exact ⟨a, t, rfl⟩
  have hpl1 : 0 < (putUvarint body.length).length := by
    simpa [putUvarint] using putUvarintAux_length_pos 10 body.length
  have hM : (encodeFrame body).length = (putUvarint body.length).length + body.length := by
    simp [encodeFrame, List.length_append]
  have hflat' : c0 ++ cs'.flatten = encodeFrame body := by simpa using hflat
  have hclen : c0.length + cs'.flatten.length = (encodeFrame body).length := by
    have h := congrArg List.length hflat'
    simpa [List.length_append] using h
  have hhead' : (putUvarint body.length).length ≤ c0.length := by simpa using hhead
  have hsne : ¬ (encodeFrame body ++ rest) = [] := by
    intro hcon
    rw [List.append_eq_nil] at hcon
    have h := congrArg List.length hcon.1
    simp only [List.length_nil] at h
    omega
  rw [List.map_cons, List.cons_append, runLoop_cons mbs handle _ _ _ _ _ hsne]
  have hslen : (encodeFrame body ++ rest).length
      = (encodeFrame body).length + rest.length := by
    simp [List.length_append]
  have hk : min c0.length (min (encodeFrame body ++ rest).length
      ((⟨f, 4 * 1024 * 1024, 0, 0, 0⟩ : RdState).bufLen -
       (⟨f, 4 * 1024 * 1024, 0, 0, 0⟩ : RdState).pos)) = c0.length := by
    dsimp only
    omega
  rw [hk]
  have hstr : encodeFrame body ++ rest = c0 ++ (cs'.flatten ++ rest) := by
    rw [← hflat', List.append_assoc]
  have htake : (encodeFrame body ++ rest).take c0.length = c0 := by
    rw [hstr, List.take_left]
  have hdrop : (encodeFrame body ++ rest).drop c0.length = cs'.flatten ++ rest := by
    rw [hstr, List.drop_left]
  rw [htake, hdrop]
  have hflat0 : (c0 :: cs').flatten = (encodeFrame body).drop 0 := by
    rw [List.drop_zero]
    exact hflat
  have hagw : AgreesPrefix (bufWrite f 0 c0) (encodeFrame body) (0 + c0.length) :=
    agrees_bufWrite f (encodeFrame body) 0 c0 (fun j hj => absurd hj (by omega))
      (chunk_getD_of_flatten (encodeFrame body) 0 c0 cs' hflat0)
  have hagw' : AgreesPrefix (bufWrite f 0 c0) (encodeFrame body) c0.length := by
    simpa using hagw
  have h1284 : (128 : Nat) ^ 4 = 268435456 := by norm_num
  have hu : uvarintGo (bufWrite
        (⟨f, 4 * 1024 * 1024, 0, 0, 0⟩ : RdState).f
        (⟨f, 4 * 1024 * 1024, 0, 0, 0⟩ : RdState).pos c0)
        (⟨f, 4 * 1024 * 1024, 0, 0, 0⟩ : RdState).bufLen
      = (body.length, ((putUvarint body.length).length : Int)) := by
    dsimp only
    apply uvarintGo_putUvarint
    · omega
    · intro j hj
      have hjc : j < c0.length := by omega
      have h1 := hagw' j hjc
      rw [h1]
      have : (encodeFrame body).getD j 0 = (putUvarint body.length).getD j 0 := by
        rw [encodeFrame]
        exact getD_append_of_lt _ _ _ hj
      exact this
    · omega
  rw [readStep_header mbs handle _ c0 body.length (putUvarint body.length).length
    rfl hu hpl1 (by omega) (by dsimp only; omega)]
  dsimp only
  by_cases hend : c0.length = body.length + (putUvarint body.length).length
  · have hag2 : AgreesPrefix (bufWrite f 0 c0) (encodeFrame body)
        (encodeFrame body).length := by
      rw [hM]
      have : c0.length = (putUvarint body.length).length + body.length := by omega
      rw [← this]
      exact hagw'
    have hslice : bufSlice (bufWrite f 0 c0) (putUvarint body.length).length
        (body.length + (putUvarint body.length).length) = body := by
      have hMl : body.length + (putUvarint body.length).length
          = (encodeFrame body).length := by omega
      rw [hMl, bufSlice_eq_drop _ _ _ hag2 (by omega), encodeFrame, List.drop_left]
    have hcs' : cs' = [] := by
      apply flatten_nil_of_mem_ne cs' (fun x hx => hcsne x (by simp [hx]))
      omega
    subst hcs'
    simp only [dispatchCheck, if_pos hend, hslice, hh]
    exact ⟨bufWrite f 0 c0, rfl⟩
  · have hlt : c0.length < body.length + (putUvarint body.length).length := by omega
    simp only [dispatchCheck, if_neg hend]
    have hflat2 : cs'.flatten = (encodeFrame body).drop c0.length := by
      have h1 : (c0 ++ cs'.flatten).drop c0.length = cs'.flatten := List.drop_left _ _
      rw [hflat'] at h1
      rw [← h1]
    have hbody : (encodeFrame body).drop (putUvarint body.length).length = body := by
      rw [encodeFrame, List.drop_left]
    obtain ⟨f2, heq⟩ := runLoop_accum mbs handle (encodeFrame body)
      (putUvarint body.length).length rest restSizes (by omega) (by omega)
      (by rw [hbody]; exact hh) cs' (bufWrite f 0 c0) c0.length acc
      (fun x hx => hcsne x (by simp [hx])) hflat2 (by omega) hagw'
    rw [hbody] at heq
    have hMl : body.length + (putUvarint body.length).length
        = (encodeFrame body).length := by omega
    rw [hMl, hflat2]
    refine ⟨f2, ?_⟩
    simpa using heq

theorem runLoop_frames (mbs : Nat) (handle : List Nat → Option GoError) :
    ∀ (msgs : List (List Nat)) (chunkss : List (List (List Nat))),
      List.Forall₂ (fun m cs =>
        goodChunks (encodeFrame m) (putUvarint m.length).length cs) msgs chunkss →
      (∀ b ∈ msgs, b.length ≤ mbs) →
      (∀ b ∈ msgs, b.length + (putUvarint b.length).length ≤ 4 * 1024 * 1024) →
      (∀ b ∈ msgs, handle b = none) →
      ∀ (f : Nat → Nat) (rest restSizes : List Nat) (acc : List (List Nat)),
      ∃ f2, runLoop mbs handle ((msgs.map encodeFrame).flatten ++ rest)
          ((chunkss.flatten.map List.length) ++ restSizes)
          ⟨f, 4 * 1024 * 1024, 0, 0, 0⟩ acc
        = runLoop mbs handle rest restSizes ⟨f2, 4 * 1024 * 1024, 0, 0, 0⟩
            (acc ++ msgs) := by
  intro msgs chunkss halign
  induction halign with
  | nil =>
    intro _ _ _ f rest restSizes acc
    exact ⟨f, by simp⟩
  | cons hgc htail ih =>
    intro hmb hfit hh f rest restSizes acc
    rename_i m cs msgs' chunkss'
    have hstream : ((m :: msgs').map encodeFrame).flatten ++ rest
        = encodeFrame m ++ ((msgs'.map encodeFrame).flatten ++ rest) := by
      simp [List.append_assoc]
    have hsizes : ((cs :: chunkss').flatten.map List.length) ++ restSizes
        = cs.map List.length ++ ((chunkss'.flatten.map List.length) ++ restSizes) := by
      simp [List.append_assoc]
    rw [hstream, hsizes]
    obtain ⟨f2, heq1⟩ := runLoop_frame mbs handle m cs f
      ((msgs'.map encodeFrame).flatten ++ rest)
      ((chunkss'.flatten.map List.length) ++ restSizes) acc hgc
      (hmb m (by simp)) (hfit m (by simp)) (hh m (by simp))
    obtain ⟨f3, heq2⟩ := ih (fun b hb => hmb b (by simp [hb]))
      (fun b hb => hfit b (by simp [hb])) (fun b hb => hh b (by simp [hb]))
      f2 rest restSizes (acc ++ [m])
    refine ⟨f3, ?_⟩
    rw [heq1, heq2]
    simp

/-- C1 (amended): for every sequence of messages — each body at most the
maximum block size `mbs` and with its frame (prefix plus body) fitting the
initial 4 MiB buffer — if the reads are frame-aligned (no read crosses a
frame boundary and the first read of each frame contains the frame's whole
varint prefix, `goodChunks`), the Frame Reader hands the Request Processor
exactly the original bodies in order and then returns cleanly on EOF,
never closing the connection on an error.  For chunkings violating this
alignment the round-trip fails — see the counterexample, where a single
read spanning two frames loses both messages. -/
theorem c1_framing_roundtrip (mbs : Nat) (handle : List Nat → Option GoError)
    (msgs : List (List Nat)) (chunkss : List (List (List Nat)))
    (halign : List.Forall₂ (fun m cs =>
      goodChunks (encodeFrame m) (putUvarint m.length).length cs) msgs chunkss)
    (hmb : ∀ b ∈ msgs, b.length ≤ mbs)
    (hfit : ∀ b ∈ msgs, b.length + (putUvarint b.length).length ≤ 4 * 1024 * 1024)
    (hh : ∀ b ∈ msgs, handle b = none) :
    runLoop mbs handle (msgs.map encodeFrame).flatten
      (chunkss.flatten.map List.length ++ [1]) initSt []
      = .eofClean msgs := by
  obtain ⟨f2, heq⟩ := runLoop_frames mbs handle msgs chunkss halign hmb hfit hh
    (fun _ => 0) [] [1] []
  rw [List.append_nil] at heq
  show runLoop mbs handle (msgs.map encodeFrame).flatten
    (chunkss.flatten.map List.length ++ [1]) ⟨fun _ => 0, 4 * 1024 * 1024, 0, 0, 0⟩ []
    = .eofClean msgs
  rw [heq]
  simp [runLoop]

theorem c1_framing_roundtrip_witness :
    (List.Forall₂ (fun m cs =>
        goodChunks (encodeFrame m) (putUvarint m.length).length cs)
        [[65]] [[[1, 65]]] ∧
      (∀ b ∈ ([[65]] : List (List Nat)), b.length ≤ 2097152) ∧
      (∀ b ∈ ([[65]] : List (List Nat)),
        b.length + (putUvarint b.length).length ≤ 4 * 1024 * 1024) ∧
      (∀ b ∈ ([[65]] : List (List Nat)),
        (fun _ => (none : Option GoError)) b = none)) ∧
    runLoop 2097152 (fun _ => none) (([[65]] : List (List Nat)).map encodeFrame).flatten
      (([[[1, 65]]] : List (List (List Nat))).flatten.map List.length ++ [1]) initSt []
      = .eofClean [[65]] :=
  have h1 : List.Forall₂ (fun m cs =>
      goodChunks (encodeFrame m) (putUvarint m.length).length cs)
      [[65]] [[[1, 65]]] :=
    List.Forall₂.cons (by decide) List.Forall₂.nil
  have h2 : ∀ b ∈ ([[65]] : List (List Nat)), b.length ≤ 2097152 := by decide
  have h3 : ∀ b ∈ ([[65]] : List (List Nat)),
      b.length + (putUvarint b.length).length ≤ 4 * 1024 * 1024 := by decide
  have h4 : ∀ b ∈ ([[65]] : List (List Nat)),
      (fun _ => (none : Option GoError)) b = none := by decide
  ⟨⟨h1, h2, h3, h4⟩,
   c1_framing_roundtrip 2097152 (fun _ => none) [[65]] [[[1, 65]]] h1 h2 h3 h4⟩

/-- C1 counterexample: the two valid messages `[65]` and `[66]`, encoded
as `varint-length + body` and delivered in a single 4-byte read (a
perfectly legal chunking of the same byte stream — the claim allows
arbitrarily chosen chunk sizes), produce NO dispatched bodies: the header
parse sets `msgLen = 2` but `pos` jumps to 4, the loop's exact
`pos == msgLen` test never fires again, and EOF ends the connection with
both messages lost instead of the claimed `[[65], [66]]`. -/
theorem c1_framing_roundtrip_cex :
    runLoop 2097152 (fun _ => none) (encodeFrame [65] ++ encodeFrame [66]) [4, 1]
        initSt [] = .eofClean []
      ∧ ([] : List (List Nat)) ≠ [[65], [66]] := by
  constructor
  · rfl
  · decide

theorem c9_buffer_growth_witness :
    readStep 4194304 (fun _ => none) initSt [1] = .next c9WitSt [] ∧
    (initSt.bufLen ≤ c9WitSt.bufLen ∧
     (initSt.msgLen ≠ 0 → c9WitSt.bufLen = initSt.bufLen) ∧
     (initSt.msgLen = 0 → c9WitSt.msgLen ≠ 0 →
       c9WitSt.msgLen - c9WitSt.prefixLen ≤ c9WitSt.bufLen ∧
       (initSt.bufLen < c9WitSt.msgLen - c9WitSt.prefixLen →
         c9WitSt.bufLen = c9WitSt.msgLen ∧
         ∀ j, j < initSt.bufLen → c9WitSt.f j = bufWrite initSt.f initSt.pos [1] j))) :=
  have h : readStep 4194304 (fun _ => none) initSt [1] = .next c9WitSt [] := rfl
  ⟨h, c9_buffer_growth 4194304 (fun _ => none) initSt [1] c9WitSt [] h⟩
